import Mathlib

/-!
# Ordered set backed by a treap (`src/treap/treap.h`)

A shallow embedding of `alexbogo::treap<KeyType, LevelType>`.

* A `node_ptr` is either `nullptr` or the address of an exclusively owned heap
  node; since every node has exactly one owner and there are no back pointers,
  a `node_ptr` is modelled by the finite tree hanging below it.
* The private member functions that take a `node_ptr` (`merge`, `split`,
  `search`, `erase`, `lower_bound`, `clear`) live in the namespace `node_ptr`;
  the public operations on the container live in the namespace `treap`.
* Output parameters (`a`, `b` of `split`, `erased` of `erase`) become components
  of the returned tuple.  The in/out flag `erased` is threaded explicitly.
* `next_rand` is the pluggable priority source: `insert` receives the level it
  draws as an argument, so every statement quantifies over every possible draw.
* The key type only needs its strict total order, the level type its order.
-/

namespace alexbogo

/-- A `node_ptr` of the source: `null` is `nullptr`, `node` is a pointer to a
`struct node` with its four fields in declaration order. -/
inductive node_ptr (K P : Type) where
  | null : node_ptr K P
  | node (Value : K) (Level : P) (Left Right : node_ptr K P) : node_ptr K P
deriving DecidableEq

/-- The container: its two data members `Root` and `Size`. -/
structure treap (K P : Type) where
  Root : node_ptr K P
  Size : Nat
deriving DecidableEq

/-- Largest value of `size_t` (64 bit). -/
def SIZE_MAX : Nat := 2 ^ 64 - 1

namespace node_ptr

variable {K P : Type}

/-- Number of nodes reachable from a pointer. -/
def numNodes : node_ptr K P → Nat
  | null => 0
  | node _ _ l r => numNodes l + numNodes r + 1

/-- In-order enumeration of the stored values. -/
def values : node_ptr K P → List K
  | null => []
  | node v _ l r => values l ++ v :: values r

/-- In-order enumeration of the stored `(Value, Level)` pairs. -/
def pairs : node_ptr K P → List (K × P)
  | null => []
  | node v p l r => pairs l ++ (v, p) :: pairs r

/-- Height of the tree below a pointer: the number of nodes on its longest
downward path, `0` for `nullptr`. -/
def height : node_ptr K P → Nat
  | null => 0
  | node _ _ l r => max (height l) (height r) + 1

/-- Inner loop of `merge` for a non-null `a = node va pa la ra`: it walks down
the left spine of `b` while `a->Level > b->Level` fails (line 79) and hands over
to `mergeRight = merge a->Right` as soon as it holds (line 76). -/
def mergeInto [LinearOrder P] (va : K) (pa : P) (la ra : node_ptr K P)
    (mergeRight : node_ptr K P → node_ptr K P) : node_ptr K P → node_ptr K P
  | null => node va pa la ra
  | node vb pb lb rb =>
    if pa > pb then node va pa la (mergeRight (node vb pb lb rb))
    else node vb pb (mergeInto va pa la ra mergeRight lb) rb

/-- The member `treap::merge(a, b)` (lines 64-81).  The recursion of the source
descends either in `a` or in `b`; it is written here as a structural recursion
on `a` around the structural recursion `mergeInto` on `b`.  The equations of the
source are `merge_null_left`, `merge_null_right` and `merge_node_node` below. -/
def merge [LinearOrder P] : node_ptr K P → node_ptr K P → node_ptr K P
  | null, b => b
  | node va pa la ra, b => mergeInto va pa la ra (merge ra) b

/-- The member `treap::split(node, value, a, b)` (lines 83-96); returns `(a, b)`. -/
def split [LinearOrder K] : node_ptr K P → K → node_ptr K P × node_ptr K P
  | null, _ => (null, null)
  | node v p l r, value =>
    if v ≤ value then
      (node v p l (split r value).1, (split r value).2)
    else
      ((split l value).1, node v p (split l value).2 r)

/-- The member `treap::search(tree, value)` (lines 98-110). -/
def search [LinearOrder K] : node_ptr K P → K → node_ptr K P
  | null, _ => null
  | node v p l r, value =>
    if v = value then node v p l r
    else if v < value then search r value
    else search l value

/-- The member `treap::erase(tree, value, erased)` (lines 112-129); returns the
new subtree together with the value of the flag `erased` on exit. -/
def erase [LinearOrder K] [LinearOrder P] :
    node_ptr K P → K → Bool → node_ptr K P × Bool
  | null, _, erased => (null, erased)
  | node v p l r, value, erased =>
    if v = value then (merge l r, true)
    else if v < value then (node v p l (erase r value erased).1, (erase r value erased).2)
    else (node v p (erase l value erased).1 r, (erase l value erased).2)

/-- The member `treap::lower_bound(tree, value)` (lines 131-144). -/
def lower_bound [LinearOrder K] : node_ptr K P → K → node_ptr K P
  | null, _ => null
  | node v p l r, value =>
    if v = value then node v p l r
    else if v < value then lower_bound r value
    else
      match lower_bound l value with
      | null => node v p l r
      | node v1 p1 l1 r1 => node v1 p1 l1 r1

/-- The member `treap::clear(tree)` (lines 146-154): the nodes handed to
`delete`, in the order in which they are freed. -/
def clear : node_ptr K P → List (K × P)
  | null => []
  | node v p l r => clear l ++ clear r ++ [(v, p)]

/-- Order invariant: everything stored on the left of a node is strictly
smaller than the node, everything stored on its right strictly greater. -/
def Ordered [LinearOrder K] : node_ptr K P → Prop
  | null => True
  | node v _ l r =>
    (∀ x ∈ values l, x < v) ∧ (∀ x ∈ values r, v < x) ∧ Ordered l ∧ Ordered r

/-- The level at `c` (if `c` is a node) does not exceed `p`. -/
def childLe [LinearOrder P] (p : P) : node_ptr K P → Prop
  | null => True
  | node _ q _ _ => q ≤ p

/-- Priority invariant: the level of a node is at least the level of each of
its direct children. -/
def Heap [LinearOrder P] : node_ptr K P → Prop
  | null => True
  | node _ p l r => childLe p l ∧ childLe p r ∧ Heap l ∧ Heap r

/-- Deciding the order invariant. -/
def decOrdered [LinearOrder K] : (t : node_ptr K P) → Decidable (Ordered t)
  | null => isTrue trivial
  | node v _ l r =>
    match decOrdered l, decOrdered r with
    | isTrue hl, isTrue hr =>
      if h1 : ∀ x ∈ values l, x < v then
        if h2 : ∀ x ∈ values r, v < x then isTrue ⟨h1, h2, hl, hr⟩
        else isFalse fun h => h2 h.2.1
      else isFalse fun h => h1 h.1
    | isFalse hl, _ => isFalse fun h => hl h.2.2.1
    | _, isFalse hr => isFalse fun h => hr h.2.2.2

instance instDecidableOrdered [LinearOrder K] (t : node_ptr K P) : Decidable (Ordered t) :=
  decOrdered t

/-- Deciding `childLe`. -/
def decChildLe [LinearOrder P] (p : P) : (c : node_ptr K P) → Decidable (childLe p c)
  | null => isTrue trivial
  | node _ q _ _ => if h : q ≤ p then isTrue h else isFalse h

instance instDecidableChildLe [LinearOrder P] (p : P) (c : node_ptr K P) :
    Decidable (childLe p c) :=
  decChildLe p c

/-- Deciding the priority invariant. -/
def decHeap [LinearOrder P] : (t : node_ptr K P) → Decidable (Heap t)
  | null => isTrue trivial
  | node _ p l r =>
    match decHeap l, decHeap r with
    | isTrue hl, isTrue hr =>
      if h1 : childLe p l then
        if h2 : childLe p r then isTrue ⟨h1, h2, hl, hr⟩
        else isFalse fun h => h2 h.2.1
      else isFalse fun h => h1 h.1
    | isFalse hl, _ => isFalse fun h => hl h.2.2.1
    | _, isFalse hr => isFalse fun h => hr h.2.2.2

instance instDecidableHeap [LinearOrder P] (t : node_ptr K P) : Decidable (Heap t) :=
  decHeap t

end node_ptr

namespace treap

open node_ptr

variable {K P : Type}

/-- The constructor `treap::treap()` (lines 207-211). -/
def empty : treap K P := ⟨null, 0⟩

/-- The member `treap::insert(value)` (lines 156-169); `level` is the value
that `next_rand` yields at line 161 if that line is reached.  Returns the new
state and the boolean result.  `Size++` of line 167 is written as `t.Size + 1`,
without the `size_t` wrap from `SIZE_MAX` to `0`: the two agree in every state
with `Size < SIZE_MAX` (`insert_size_of_lt`), which covers every state with the
size invariant, whose `Size` is a number of live heap nodes.  What is said about
`Size` after an insert is said for states with the size invariant. -/
def insert [LinearOrder K] [LinearOrder P] (t : treap K P) (value : K) (level : P) :
    treap K P × Bool :=
  match search t.Root value with
  | node _ _ _ _ => (t, false)
  | null =>
    (⟨merge (split t.Root value).1 (merge (node value level null null) (split t.Root value).2),
      t.Size + 1⟩, true)

/-- The member `treap::erase(value)` (lines 171-179).  `Size--` on a `size_t`
wraps around at `0`. -/
def erase [LinearOrder K] [LinearOrder P] (t : treap K P) (value : K) : treap K P × Bool :=
  if (node_ptr.erase t.Root value false).2 then
    (⟨(node_ptr.erase t.Root value false).1, if t.Size = 0 then SIZE_MAX else t.Size - 1⟩, true)
  else
    (⟨(node_ptr.erase t.Root value false).1, t.Size⟩, false)

/-- The member `treap::size()` (lines 181-184). -/
def size (t : treap K P) : Nat := t.Size

/-- The member `treap::count(value)` (lines 186-189). -/
def count [LinearOrder K] (t : treap K P) (value : K) : Nat :=
  match search t.Root value with
  | null => 0
  | node _ _ _ _ => 1

/-- The member `treap::clear()` (lines 200-205): the state it leaves behind.
The nodes it frees on the way are `node_ptr.clear t.Root`. -/
def clear (_t : treap K P) : treap K P := ⟨null, 0⟩

/-- Size invariant: `Size` is the number of nodes reachable from `Root`. -/
def SizeInv (t : treap K P) : Prop := t.Size = numNodes t.Root

instance instDecidableSizeInv (t : treap K P) : Decidable (SizeInv t) :=
  inferInstanceAs (Decidable (t.Size = numNodes t.Root))

end treap

/-- One request of a driver of the container; an `insert` request carries the
level that `next_rand` would yield for it. -/
inductive Op (K P : Type) where
  | insert (value : K) (level : P) : Op K P
  | erase (value : K) : Op K P

namespace treap

variable {K P : Type}

/-- Serve one request: the new state and the boolean the call returns. -/
def step [LinearOrder K] [LinearOrder P] (t : treap K P) : Op K P → treap K P × Bool
  | Op.insert value level => t.insert value level
  | Op.erase value => t.erase value

/-- Serve a sequence of requests: the final state and the booleans returned,
in order. -/
def run [LinearOrder K] [LinearOrder P] : treap K P → List (Op K P) → treap K P × List Bool
  | t, [] => (t, [])
  | t, op :: ops => ((run (t.step op).1 ops).1, (t.step op).2 :: (run (t.step op).1 ops).2)

end treap

/-- Reference ordered set of the differential property, written from the
words of the specification: a finite mathematical set, whose `insert` reports
whether the value was new and whose `erase` reports whether it was present. -/
abbrev RefSet (K : Type) : Type := Finset K

namespace RefSet

variable {K P : Type}

/-- The reference starts empty. -/
def empty : RefSet K := (∅ : Finset K)

/-- Serve one request on the reference set; levels are ignored. -/
def step [DecidableEq K] (s : RefSet K) : Op K P → RefSet K × Bool
  | Op.insert value _ => (Insert.insert value (s : Finset K), decide (value ∉ (s : Finset K)))
  | Op.erase value => (Finset.erase (s : Finset K) value, decide (value ∈ (s : Finset K)))

/-- Serve a sequence of requests on the reference set. -/
def run [DecidableEq K] : RefSet K → List (Op K P) → RefSet K × List Bool
  | s, [] => (s, [])
  | s, op :: ops => ((run (step s op).1 ops).1, (step s op).2 :: (run (step s op).1 ops).2)

/-- Cardinality of the reference set. -/
def size (s : RefSet K) : Nat := Finset.card (s : Finset K)

/-- Membership count of the reference set: `1` for a member, `0` otherwise. -/
def count [DecidableEq K] (s : RefSet K) (value : K) : Nat :=
  if value ∈ (s : Finset K) then 1 else 0

/-- The elements of the reference set in increasing order. -/
def enumerate [LinearOrder K] (s : RefSet K) : List K :=
  Finset.sort (fun x y => x ≤ y) (s : Finset K)

end RefSet

/-- The container of scenario 4 of the specification over `treap<int>`, with
the levels 4, 9, 2, 7, 5 drawn: `insert(1); ...; insert(5); erase(3)`. -/
def scenario4 : treap Int Nat :=
  (treap.run treap.empty
    [Op.insert 1 4, Op.insert 2 9, Op.insert 3 2, Op.insert 4 7, Op.insert 5 5, Op.erase 3]).1

/-- The container of scenario 1 of the specification over `treap<int>`, with
three equal levels drawn: `insert(5); insert(3); insert(8)`. -/
def scenario1 : treap Int Nat :=
  (treap.run treap.empty [Op.insert 5 6, Op.insert 3 6, Op.insert 8 6]).1

/-! ## The structural primitives -/

namespace node_ptr

variable {K P : Type}

theorem merge_null_left [LinearOrder P] (b : node_ptr K P) : merge null b = b := rfl

theorem merge_null_right [LinearOrder P] (a : node_ptr K P) : merge a null = a := by
  cases a <;> rfl

theorem merge_node_node [LinearOrder P] (va : K) (pa : P) (la ra : node_ptr K P)
    (vb : K) (pb : P) (lb rb : node_ptr K P) :
    merge (node va pa la ra) (node vb pb lb rb) =
      if pa > pb then node va pa la (merge ra (node vb pb lb rb))
      else node vb pb (merge (node va pa la ra) lb) rb := rfl

/-- Induction along the recursion of `merge`. -/
theorem merge_induction [LinearOrder P] {motive : node_ptr K P → node_ptr K P → Prop}
    (hl : ∀ b, motive null b) (hr : ∀ a, motive a null)
    (ha : ∀ va pa la ra vb pb lb rb, pa > pb →
      motive ra (node vb pb lb rb) → motive (node va pa la ra) (node vb pb lb rb))
    (hb : ∀ va pa la ra vb pb lb rb, ¬ pa > pb →
      motive (node va pa la ra) lb → motive (node va pa la ra) (node vb pb lb rb))
    (a b : node_ptr K P) : motive a b := by
  induction a generalizing b with
  | null => exact hl b
  | node va pa la ra _ iha =>
    induction b with
    | null => exact hr _
    | node vb pb lb rb ihb _ =>
      by_cases h : pa > pb
      · exact ha _ _ _ _ _ _ _ _ h (iha _)
      · exact hb _ _ _ _ _ _ _ _ h ihb

theorem values_merge [LinearOrder P] (a b : node_ptr K P) :
    values (merge a b) = values a ++ values b := by
  induction a, b using merge_induction with
  | hl b => simp [merge_null_left, values]
  | hr a => simp [merge_null_right, values]
  | ha va pa la ra vb pb lb rb h ih => rw [merge_node_node, if_pos h]; simp [values, ih]
  | hb va pa la ra vb pb lb rb h ih => rw [merge_node_node, if_neg h]; simp [values, ih]

theorem numNodes_eq_length (t : node_ptr K P) : numNodes t = (values t).length := by
  induction t with
  | null => rfl
  | node v p l r ihl ihr => simp [numNodes, values, ihl, ihr]; omega

theorem numNodes_merge [LinearOrder P] (a b : node_ptr K P) :
    numNodes (merge a b) = numNodes a + numNodes b := by
  simp [numNodes_eq_length, values_merge]

theorem values_split [LinearOrder K] (t : node_ptr K P) (x : K) :
    values (split t x).1 ++ values (split t x).2 = values t := by
  induction t with
  | null => simp [split, values]
  | node v p l r ihl ihr =>
    by_cases h : v ≤ x
    · simp [split, h, values, ihr]
    · simp [split, h, values, ← ihl]

theorem split_fst_le [LinearOrder K] (t : node_ptr K P) (x : K) (h : Ordered t) :
    ∀ y ∈ values (split t x).1, y ≤ x := by
  induction t with
  | null => simp [split, values]
  | node v p l r ihl ihr =>
    obtain ⟨h1, h2, h3, h4⟩ := h
    by_cases hv : v ≤ x
    · intro y hy
      simp only [split, hv, if_true, values, List.mem_append, List.mem_cons] at hy
      rcases hy with hy | rfl | hy
      · exact le_trans (le_of_lt (h1 y hy)) hv
      · exact hv
      · exact ihr h4 y hy
    · intro y hy
      simp only [split, hv, if_false] at hy
      exact ihl h3 y hy

theorem split_snd_gt [LinearOrder K] (t : node_ptr K P) (x : K) (h : Ordered t) :
    ∀ y ∈ values (split t x).2, x < y := by
  induction t with
  | null => simp [split, values]
  | node v p l r ihl ihr =>
    obtain ⟨h1, h2, h3, h4⟩ := h
    by_cases hv : v ≤ x
    · intro y hy
      simp only [split, hv, if_true] at hy
      exact ihr h4 y hy
    · intro y hy
      simp only [split, hv, if_false, values, List.mem_append, List.mem_cons] at hy
      rcases hy with hy | rfl | hy
      · exact ihl h3 y hy
      · exact lt_of_not_le hv
      · exact lt_trans (lt_of_not_le hv) (h2 y hy)

theorem ordered_iff_pairwise [LinearOrder K] (t : node_ptr K P) :
    Ordered t ↔ (values t).Pairwise (fun x y => x < y) := by
  induction t with
  | null => simp [Ordered, values]
  | node v p l r ihl ihr =>
    simp only [Ordered, values, List.pairwise_append, List.pairwise_cons, List.mem_cons, ihl, ihr]
    constructor
    · rintro ⟨h1, h2, h3, h4⟩
      refine ⟨h3, ⟨h2, h4⟩, ?_⟩
      rintro a ha b (rfl | hb)
      · exact h1 a ha
      · exact lt_trans (h1 a ha) (h2 b hb)
    · rintro ⟨h3, ⟨h2, h4⟩, h5⟩
      exact ⟨fun a ha => h5 a ha v (Or.inl rfl), h2, h3, h4⟩

theorem Ordered.nodup [LinearOrder K] {t : node_ptr K P} (h : Ordered t) :
    (values t).Nodup :=
  ((ordered_iff_pairwise t).1 h).imp (fun hxy => ne_of_lt hxy)

theorem pairs_merge [LinearOrder P] (a b : node_ptr K P) :
    pairs (merge a b) = pairs a ++ pairs b := by
  induction a, b using merge_induction with
  | hl b => simp [merge_null_left, pairs]
  | hr a => simp [merge_null_right, pairs]
  | ha va pa la ra vb pb lb rb h ih => rw [merge_node_node, if_pos h]; simp [pairs, ih]
  | hb va pa la ra vb pb lb rb h ih => rw [merge_node_node, if_neg h]; simp [pairs, ih]

theorem pairs_split [LinearOrder K] (t : node_ptr K P) (x : K) :
    pairs (split t x).1 ++ pairs (split t x).2 = pairs t := by
  induction t with
  | null => simp [split, pairs]
  | node v p l r ihl ihr =>
    by_cases h : v ≤ x
    · simp [split, h, pairs, ihr]
    · simp [split, h, pairs, ← ihl]

theorem values_eq_map_pairs (t : node_ptr K P) : values t = (pairs t).map Prod.fst := by
  induction t with
  | null => rfl
  | node v p l r ihl ihr => simp [values, pairs, ihl, ihr]

theorem ordered_merge [LinearOrder K] [LinearOrder P] {a b : node_ptr K P}
    (ha : Ordered a) (hb : Ordered b) (hab : ∀ x ∈ values a, ∀ y ∈ values b, x < y) :
    Ordered (merge a b) := by
  rw [ordered_iff_pairwise, values_merge, List.pairwise_append]
  exact ⟨(ordered_iff_pairwise a).1 ha, (ordered_iff_pairwise b).1 hb, hab⟩

theorem ordered_split [LinearOrder K] (t : node_ptr K P) (x : K) (h : Ordered t) :
    Ordered (split t x).1 ∧ Ordered (split t x).2 := by
  have hp := (ordered_iff_pairwise t).1 h
  rw [← values_split t x, List.pairwise_append] at hp
  exact ⟨(ordered_iff_pairwise _).2 hp.1, (ordered_iff_pairwise _).2 hp.2.1⟩

/-- In a tree with the priority invariant whose root is at most `p`, every
level is at most `p`. -/
theorem Heap.all_le [LinearOrder P] {t : node_ptr K P} (h : Heap t) {p : P}
    (hp : childLe p t) : ∀ y ∈ pairs t, y.2 ≤ p := by
  induction t generalizing p with
  | null => simp [pairs]
  | node v q l r ihl ihr =>
    obtain ⟨h1, h2, h3, h4⟩ := h
    have hq : q ≤ p := hp
    intro y hy
    simp only [pairs, List.mem_append, List.mem_cons] at hy
    rcases hy with hy | rfl | hy
    · exact le_trans (ihl h3 h1 y hy) hq
    · exact hq
    · exact le_trans (ihr h4 h2 y hy) hq

theorem childLe_of_all_le [LinearOrder P] {t : node_ptr K P} {p : P}
    (h : ∀ y ∈ pairs t, y.2 ≤ p) : childLe p t := by
  cases t with
  | null => trivial
  | node v q l r => exact h (v, q) (by simp [pairs])

theorem heap_merge [LinearOrder P] (a b : node_ptr K P) (ha : Heap a) (hb : Heap b) :
    Heap (merge a b) := by
  induction a, b using merge_induction with
  | hl b => simpa [merge_null_left] using hb
  | hr a => simpa [merge_null_right] using ha
  | ha va pa la ra vb pb lb rb h ih =>
    rw [merge_node_node, if_pos h]
    obtain ⟨h1, h2, h3, h4⟩ := ha
    refine ⟨h1, childLe_of_all_le ?_, h3, ih h4 hb⟩
    intro y hy
    rw [pairs_merge, List.mem_append] at hy
    rcases hy with hy | hy
    · exact Heap.all_le h4 h2 y hy
    · exact Heap.all_le hb (show childLe pa (node vb pb lb rb) from le_of_lt h) y hy
  | hb va pa la ra vb pb lb rb h ih =>
    rw [merge_node_node, if_neg h]
    obtain ⟨h1, h2, h3, h4⟩ := hb
    refine ⟨childLe_of_all_le ?_, h2, ih ha h3, h4⟩
    intro y hy
    rw [pairs_merge, List.mem_append] at hy
    rcases hy with hy | hy
    · exact Heap.all_le ha (show childLe pb (node va pa la ra) from le_of_not_lt h) y hy
    · exact Heap.all_le h3 h1 y hy

theorem heap_split [LinearOrder K] [LinearOrder P] (t : node_ptr K P) (x : K) (h : Heap t) :
    Heap (split t x).1 ∧ Heap (split t x).2 := by
  induction t with
  | null => simp [split, Heap]
  | node v p l r ihl ihr =>
    obtain ⟨h1, h2, h3, h4⟩ := h
    by_cases hv : v ≤ x
    · simp only [split, hv, if_true]
      refine ⟨⟨h1, childLe_of_all_le ?_, h3, (ihr h4).1⟩, (ihr h4).2⟩
      intro y hy
      exact Heap.all_le h4 h2 y (by rw [← pairs_split r x]; exact List.mem_append_left _ hy)
    · simp only [split, hv, if_false]
      refine ⟨(ihl h3).1, ⟨childLe_of_all_le ?_, h2, (ihl h3).2, h4⟩⟩
      intro y hy
      exact Heap.all_le h3 h1 y (by rw [← pairs_split l x]; exact List.mem_append_right _ hy)

/-! ## Search, erase and lower bound on a subtree -/

theorem search_value [LinearOrder K] (t : node_ptr K P) (x : K) {v : K} {p : P}
    {l r : node_ptr K P} (h : search t x = node v p l r) : v = x := by
  induction t with
  | null => simp [search] at h
  | node w q tl tr ihl ihr =>
    by_cases h1 : w = x
    · simp only [search, h1, if_true] at h
      injection h with e1 _ _ _
      exact e1.symm
    · by_cases h2 : w < x
      · simp only [search, h1, h2, if_true, if_false] at h
        exact ihr h
      · simp only [search, h1, h2, if_false] at h
        exact ihl h

theorem search_mem [LinearOrder K] (t : node_ptr K P) (x : K) (h : search t x ≠ null) :
    x ∈ values t := by
  induction t with
  | null => simp [search] at h
  | node w q tl tr ihl ihr =>
    by_cases h1 : w = x
    · simp [values, h1]
    · by_cases h2 : w < x
      · simp only [search, h1, h2, if_true, if_false] at h
        simp [values, ihr h]
      · simp only [search, h1, h2, if_false] at h
        simp [values, ihl h]

theorem search_eq_null_iff [LinearOrder K] (t : node_ptr K P) (x : K) (h : Ordered t) :
    search t x = null ↔ x ∉ values t := by
  induction t with
  | null => simp [search, values]
  | node w q tl tr ihl ihr =>
    obtain ⟨h1, h2, h3, h4⟩ := h
    by_cases e1 : w = x
    · subst e1
      simp [search, values]
    · by_cases e2 : w < x
      · simp only [search, e1, e2, if_true, if_false, ihr h4, values, List.mem_append,
          List.mem_cons]
        have : x ∉ values tl := fun hx => lt_asymm (h1 x hx) e2
        have e3 : ¬ x = w := fun e => e1 e.symm
        tauto
      · simp only [search, e1, e2, if_false, ihl h3, values, List.mem_append, List.mem_cons]
        have : x ∉ values tr := fun hx => e2 (h2 x hx)
        have e3 : ¬ x = w := fun e => e1 e.symm
        tauto

/-- The flag on exit: it was set on entry or the descent met `value`. -/
theorem erase_snd [LinearOrder K] [LinearOrder P] (t : node_ptr K P) (x : K) (e : Bool) :
    (erase t x e).2 = true ↔ e = true ∨ search t x ≠ null := by
  induction t with
  | null => simp [erase, search]
  | node w q tl tr ihl ihr =>
    by_cases h1 : w = x
    · simp [erase, search, h1]
    · by_cases h2 : w < x
      · simp only [erase, search, h1, h2, if_true, if_false]
        exact ihr
      · simp only [erase, search, h1, h2, if_false]
        exact ihl

/-- When the descent does not meet `value`, the subtree is rebuilt unchanged. -/
theorem erase_fst_of_search_null [LinearOrder K] [LinearOrder P] (t : node_ptr K P) (x : K)
    (e : Bool) (h : search t x = null) : (erase t x e).1 = t := by
  induction t with
  | null => simp [erase]
  | node w q tl tr ihl ihr =>
    by_cases h1 : w = x
    · simp [search, h1] at h
    · by_cases h2 : w < x
      · simp only [search, h1, h2, if_true, if_false] at h
        simp [erase, h1, h2, ihr h]
      · simp only [search, h1, h2, if_false] at h
        simp [erase, h1, h2, ihl h]

/-- When the descent meets `value`, exactly one node disappears. -/
theorem numNodes_erase [LinearOrder K] [LinearOrder P] (t : node_ptr K P) (x : K)
    (e : Bool) (h : search t x ≠ null) : numNodes (erase t x e).1 + 1 = numNodes t := by
  induction t with
  | null => simp [search] at h
  | node w q tl tr ihl ihr =>
    by_cases h1 : w = x
    · simp [erase, h1, numNodes, numNodes_merge]
    · by_cases h2 : w < x
      · simp only [search, h1, h2, if_true, if_false] at h
        simp only [erase, h1, h2, if_true, if_false, numNodes]
        have := ihr h
        omega
      · simp only [search, h1, h2, if_false] at h
        simp only [erase, h1, h2, if_false, numNodes]
        have := ihl h
        omega

theorem values_erase [LinearOrder K] [LinearOrder P] (t : node_ptr K P) (x : K) (e : Bool)
    (h : Ordered t) : values (erase t x e).1 = (values t).filter (fun y => !decide (y = x)) := by
  induction t with
  | null => simp [erase, values]
  | node w q tl tr ihl ihr =>
    obtain ⟨h1, h2, h3, h4⟩ := h
    by_cases e1 : w = x
    · subst e1
      have hl : (values tl).filter (fun y => !decide (y = w)) = values tl :=
        List.filter_eq_self.2 (fun y hy => by simpa using ne_of_lt (h1 y hy))
      have hr : (values tr).filter (fun y => !decide (y = w)) = values tr :=
        List.filter_eq_self.2 (fun y hy => by simpa using ne_of_gt (h2 y hy))
      simp [erase, values, values_merge, List.filter_cons, hl, hr]
    · by_cases e2 : w < x
      · have hl : (values tl).filter (fun y => !decide (y = x)) = values tl :=
          List.filter_eq_self.2 (fun y hy => by simpa using ne_of_lt (lt_trans (h1 y hy) e2))
        simp [erase, e1, e2, values, List.filter_cons, hl, ihr h4]
      · have e3 : x < w := lt_of_le_of_ne (not_lt.1 e2) (fun e => e1 e.symm)
        have hr : (values tr).filter (fun y => !decide (y = x)) = values tr :=
          List.filter_eq_self.2 (fun y hy => by simpa using ne_of_gt (lt_trans e3 (h2 y hy)))
        simp [erase, e1, e2, values, List.filter_cons, hr, ihl h3]

theorem ordered_erase [LinearOrder K] [LinearOrder P] (t : node_ptr K P) (x : K) (e : Bool)
    (h : Ordered t) : Ordered (erase t x e).1 := by
  rw [ordered_iff_pairwise, values_erase t x e h]
  exact ((ordered_iff_pairwise t).1 h).filter _

theorem pairs_erase_subset [LinearOrder K] [LinearOrder P] (t : node_ptr K P) (x : K)
    (e : Bool) : ∀ y ∈ pairs (erase t x e).1, y ∈ pairs t := by
  induction t with
  | null => simp [erase]
  | node w q tl tr ihl ihr =>
    intro y hy
    by_cases h1 : w = x
    · simp only [erase, h1, if_true, pairs_merge, List.mem_append] at hy
      simp only [pairs, List.mem_append, List.mem_cons]
      tauto
    · by_cases h2 : w < x
      · simp only [erase, h1, h2, if_true, if_false, pairs, List.mem_append, List.mem_cons] at hy
        simp only [pairs, List.mem_append, List.mem_cons]
        rcases hy with hy | hy | hy
        · exact Or.inl hy
        · exact Or.inr (Or.inl hy)
        · exact Or.inr (Or.inr (ihr y hy))
      · simp only [erase, h1, h2, if_false, pairs, List.mem_append, List.mem_cons] at hy
        simp only [pairs, List.mem_append, List.mem_cons]
        rcases hy with hy | hy | hy
        · exact Or.inl (ihl y hy)
        · exact Or.inr (Or.inl hy)
        · exact Or.inr (Or.inr hy)

theorem heap_erase [LinearOrder K] [LinearOrder P] (t : node_ptr K P) (x : K) (e : Bool)
    (h : Heap t) : Heap (erase t x e).1 := by
  induction t with
  | null => simp [erase, Heap]
  | node w q tl tr ihl ihr =>
    obtain ⟨h1, h2, h3, h4⟩ := h
    by_cases e1 : w = x
    · simp only [erase, e1, if_true]
      exact heap_merge _ _ h3 h4
    · by_cases e2 : w < x
      · simp only [erase, e1, e2, if_true, if_false]
        exact ⟨h1, childLe_of_all_le (fun y hy =>
          Heap.all_le h4 h2 y (pairs_erase_subset tr x e y hy)), h3, ihr h4⟩
      · simp only [erase, e1, e2, if_false]
        exact ⟨childLe_of_all_le (fun y hy =>
          Heap.all_le h3 h1 y (pairs_erase_subset tl x e y hy)), h2, ihl h3, h4⟩

/-- What `lower_bound` computes on a subtree with the order invariant. -/
theorem lower_bound_spec [LinearOrder K] (t : node_ptr K P) (x : K) (h : Ordered t) :
    (lower_bound t x = null → ∀ y ∈ values t, y < x) ∧
    (∀ v p l r, lower_bound t x = node v p l r →
      v ∈ values t ∧ x ≤ v ∧ ∀ y ∈ values t, x ≤ y → v ≤ y) := by
  induction t with
  | null => simp [lower_bound, values]
  | node w q tl tr ihl ihr =>
    obtain ⟨h1, h2, h3, h4⟩ := h
    by_cases e1 : w = x
    · subst e1
      simp only [lower_bound, if_true]
      refine ⟨fun h => (by cases h), ?_⟩
      intro v p l r hv
      injection hv with hv _ _ _
      subst hv
      exact ⟨by simp [values], le_refl _, fun y _ hy => hy⟩
    · by_cases e2 : w < x
      · simp only [lower_bound, e1, e2, if_true, if_false]
        obtain ⟨iha, ihb⟩ := ihr h4
        constructor
        · intro hn y hy
          simp only [values, List.mem_append, List.mem_cons] at hy
          rcases hy with hy | rfl | hy
          · exact lt_trans (h1 y hy) e2
          · exact e2
          · exact iha hn y hy
        · intro v p l r hv
          obtain ⟨m1, m2, m3⟩ := ihb v p l r hv
          refine ⟨by simp [values, m1], m2, ?_⟩
          intro y hy hxy
          simp only [values, List.mem_append, List.mem_cons] at hy
          rcases hy with hy | rfl | hy
          · exact absurd (lt_trans (h1 y hy) e2) (not_lt.2 hxy)
          · exact absurd e2 (not_lt.2 hxy)
          · exact m3 y hy hxy
      · have e3 : x < w := lt_of_le_of_ne (not_lt.1 e2) (fun e => e1 e.symm)
        obtain ⟨iha, ihb⟩ := ihl h3
        simp only [lower_bound, e1, e2, if_false]
        cases hlb : lower_bound tl x with
        | null =>
          refine ⟨fun h => (by cases h), ?_⟩
          intro v p l r hv
          injection hv with hv _ _ _
          subst hv
          refine ⟨by simp [values], le_of_lt e3, ?_⟩
          intro y hy hxy
          simp only [values, List.mem_append, List.mem_cons] at hy
          rcases hy with hy | rfl | hy
          · exact absurd (iha hlb y hy) (not_lt.2 hxy)
          · exact le_refl _
          · exact le_of_lt (h2 y hy)
        | node v1 p1 l1 r1 =>
          refine ⟨fun h => (by cases h), ?_⟩
          intro v p l r hv
          injection hv with hv _ _ _
          subst hv
          obtain ⟨m1, m2, m3⟩ := ihb v1 p1 l1 r1 hlb
          refine ⟨by simp [values, m1], m2, ?_⟩
          intro y hy hxy
          simp only [values, List.mem_append, List.mem_cons] at hy
          rcases hy with hy | rfl | hy
          · exact m3 y hy hxy
          · exact le_of_lt (h1 v1 m1)
          · exact le_of_lt (lt_trans (h1 v1 m1) (h2 y hy))

/-- The recursive sweep of `clear` frees every node of the subtree exactly once. -/
theorem clear_perm_pairs (t : node_ptr K P) : (clear t).Perm (pairs t) := by
  induction t with
  | null => simp [clear, pairs]
  | node v p l r ihl ihr =>
    simp only [clear, pairs]
    refine ((ihl.append ihr).append_right _).trans ?_
    rw [List.append_assoc]
    exact List.Perm.append_left _ (List.perm_append_singleton _ _)

/-- The root that `insert` builds at line 166. -/
theorem values_insert_root [LinearOrder K] [LinearOrder P] (t : node_ptr K P) (v : K) (p : P) :
    values (merge (split t v).1 (merge (node v p null null) (split t v).2)) =
      values (split t v).1 ++ v :: values (split t v).2 := by
  simp [values_merge, values]

theorem mem_values_insert_root [LinearOrder K] [LinearOrder P] (t : node_ptr K P) (v : K)
    (p : P) (w : K) :
    w ∈ values (merge (split t v).1 (merge (node v p null null) (split t v).2)) ↔
      w = v ∨ w ∈ values t := by
  rw [values_insert_root, ← values_split t v]
  simp only [List.mem_append, List.mem_cons]
  tauto

theorem numNodes_insert_root [LinearOrder K] [LinearOrder P] (t : node_ptr K P) (v : K)
    (p : P) :
    numNodes (merge (split t v).1 (merge (node v p null null) (split t v).2)) =
      numNodes t + 1 := by
  simp only [numNodes_eq_length, values_insert_root, ← values_split t v, List.length_append,
    List.length_cons]
  omega

theorem ordered_insert_root [LinearOrder K] [LinearOrder P] (t : node_ptr K P) (v : K) (p : P)
    (h : Ordered t) (hv : v ∉ values t) :
    Ordered (merge (split t v).1 (merge (node v p null null) (split t v).2)) := by
  have hle := split_fst_le t v h
  have hgt := split_snd_gt t v h
  have hs := ordered_split t v h
  rw [← values_split t v, List.mem_append, not_or] at hv
  rw [ordered_iff_pairwise, values_insert_root, List.pairwise_append, List.pairwise_cons]
  refine ⟨(ordered_iff_pairwise _).1 hs.1, ⟨hgt, (ordered_iff_pairwise _).1 hs.2⟩, ?_⟩
  intro a ha b hb
  have hav : a < v := lt_of_le_of_ne (hle a ha) (fun e => hv.1 (e ▸ ha))
  rcases List.mem_cons.1 hb with rfl | hb
  · exact hav
  · exact lt_trans hav (hgt b hb)

theorem heap_insert_root [LinearOrder K] [LinearOrder P] (t : node_ptr K P) (v : K) (p : P)
    (h : Heap t) :
    Heap (merge (split t v).1 (merge (node v p null null) (split t v).2)) :=
  heap_merge _ _ (heap_split t v h).1
    (heap_merge _ _ ⟨trivial, trivial, trivial, trivial⟩ (heap_split t v h).2)

end node_ptr

/-! ## The public operations -/

namespace treap

open node_ptr

variable {K P : Type}

theorem insert_of_search_null [LinearOrder K] [LinearOrder P] (t : treap K P) (v : K) (p : P)
    (h : search t.Root v = null) :
    t.insert v p =
      (⟨merge (split t.Root v).1 (merge (node v p null null) (split t.Root v).2),
        t.Size + 1⟩, true) := by
  simp only [treap.insert, h]

theorem insert_of_search_ne_null [LinearOrder K] [LinearOrder P] (t : treap K P) (v : K)
    (p : P) (h : search t.Root v ≠ null) : t.insert v p = (t, false) := by
  unfold treap.insert
  cases hs : search t.Root v with
  | null => exact absurd hs h
  | node _ _ _ _ => rfl

theorem erase_of_search_null [LinearOrder K] [LinearOrder P] (t : treap K P) (v : K)
    (h : search t.Root v = null) : t.erase v = (t, false) := by
  have h2 : (node_ptr.erase t.Root v false).2 = false := by
    have := (erase_snd t.Root v false).not
    simpa [h] using this
  simp [treap.erase, h2, erase_fst_of_search_null t.Root v false h]

theorem erase_of_search_ne_null [LinearOrder K] [LinearOrder P] (t : treap K P) (v : K)
    (h : search t.Root v ≠ null) :
    t.erase v = (⟨(node_ptr.erase t.Root v false).1,
      if t.Size = 0 then SIZE_MAX else t.Size - 1⟩, true) := by
  have h2 : (node_ptr.erase t.Root v false).2 = true :=
    (erase_snd t.Root v false).2 (Or.inr h)
  simp [treap.erase, h2]

theorem count_eq [LinearOrder K] (t : treap K P) (v : K) (h : Ordered t.Root) :
    t.count v = if v ∈ values t.Root then 1 else 0 := by
  unfold treap.count
  cases hs : search t.Root v with
  | null => simp [(search_eq_null_iff t.Root v h).1 hs]
  | node _ _ _ _ =>
    have : v ∈ values t.Root := search_mem t.Root v (by simp [hs])
    simp [this]

/-- In a state with `Size < SIZE_MAX` the increment of `insert` is the `size_t`
increment of line 167. -/
theorem insert_size_of_lt [LinearOrder K] [LinearOrder P] (t : treap K P) (v : K) (p : P)
    (hx : search t.Root v = null) (h : t.Size < SIZE_MAX) :
    (t.insert v p).1.Size = (t.Size + 1) % 2 ^ 64 := by
  rw [treap.insert_of_search_null t v p hx]
  have h2 : t.Size + 1 < 2 ^ 64 := by
    unfold SIZE_MAX at h
    omega
  exact (Nat.mod_eq_of_lt h2).symm

end treap

/-! ## Stored pairs and the shape of a treap -/

namespace node_ptr

variable {K P : Type}

theorem mem_values_of_mem_pairs {t : node_ptr K P} {y : K × P} (h : y ∈ pairs t) :
    y.1 ∈ values t := by
  rw [values_eq_map_pairs]
  exact List.mem_map_of_mem _ h

theorem pairs_insert_root_perm [LinearOrder K] [LinearOrder P] (t : node_ptr K P) (v : K)
    (p : P) :
    (pairs (merge (split t v).1 (merge (node v p null null) (split t v).2))).Perm
      ((v, p) :: pairs t) := by
  rw [pairs_merge, pairs_merge, ← pairs_split t v]
  simp only [pairs, List.nil_append]
  exact List.perm_middle

/-- When the descent of `erase` meets `value`, exactly one pair leaves the tree,
and its value is `value`. -/
theorem pairs_erase_perm [LinearOrder K] [LinearOrder P] (t : node_ptr K P) (x : K) (e : Bool)
    (h : search t x ≠ null) : ∃ q, (pairs t).Perm ((x, q) :: pairs (erase t x e).1) := by
  induction t with
  | null => simp [search] at h
  | node w q tl tr ihl ihr =>
    by_cases h1 : w = x
    · subst h1
      refine ⟨q, ?_⟩
      simp only [erase, if_true, pairs, pairs_merge]
      exact List.perm_middle
    · by_cases h2 : w < x
      · simp only [search, h1, h2, if_true, if_false] at h
        obtain ⟨q1, hq⟩ := ihr h
        refine ⟨q1, ?_⟩
        simp only [erase, h1, h2, if_true, if_false, pairs]
        refine (List.Perm.append_left _ (List.Perm.cons _ hq)).trans ?_
        refine (List.Perm.append_left _ (List.Perm.swap _ _ _)).trans ?_
        exact List.perm_middle
      · simp only [search, h1, h2, if_false] at h
        obtain ⟨q1, hq⟩ := ihl h
        refine ⟨q1, ?_⟩
        simp only [erase, h1, h2, if_false, pairs]
        exact List.Perm.append_right _ hq

theorem Heap.root_max [LinearOrder P] {v : K} {p : P} {l r : node_ptr K P}
    (h : Heap (node v p l r)) : ∀ y ∈ pairs (node v p l r), y.2 ≤ p :=
  Heap.all_le h (show childLe p (node v p l r) from le_refl p)

theorem mem_pairs_left_iff [LinearOrder K] {v : K} {p : P} {l r : node_ptr K P}
    (h : Ordered (node v p l r)) (y : K × P) :
    y ∈ pairs l ↔ y ∈ pairs (node v p l r) ∧ y.1 < v := by
  obtain ⟨h1, h2, _, _⟩ := h
  simp only [pairs, List.mem_append, List.mem_cons]
  constructor
  · intro hy
    exact ⟨Or.inl hy, h1 _ (mem_values_of_mem_pairs hy)⟩
  · rintro ⟨hy | hy | hy, hlt⟩
    · exact hy
    · rw [hy] at hlt
      exact absurd hlt (lt_irrefl v)
    · exact absurd hlt (lt_asymm (h2 _ (mem_values_of_mem_pairs hy)))

theorem mem_pairs_right_iff [LinearOrder K] {v : K} {p : P} {l r : node_ptr K P}
    (h : Ordered (node v p l r)) (y : K × P) :
    y ∈ pairs r ↔ y ∈ pairs (node v p l r) ∧ v < y.1 := by
  obtain ⟨h1, h2, _, _⟩ := h
  simp only [pairs, List.mem_append, List.mem_cons]
  constructor
  · intro hy
    exact ⟨Or.inr (Or.inr hy), h2 _ (mem_values_of_mem_pairs hy)⟩
  · rintro ⟨hy | hy | hy, hlt⟩
    · exact absurd hlt (lt_asymm (h1 _ (mem_values_of_mem_pairs hy)))
    · rw [hy] at hlt
      exact absurd hlt (lt_irrefl v)
    · exact hy

/-- Two trees with both invariants that store the same pairs, the levels being
pairwise distinct, are the same tree. -/
theorem eq_of_same_pairs [LinearOrder K] [LinearOrder P] (t1 t2 : node_ptr K P)
    (ho1 : Ordered t1) (hh1 : Heap t1) (ho2 : Ordered t2) (hh2 : Heap t2)
    (hm : ∀ y, y ∈ pairs t1 ↔ y ∈ pairs t2) (hd : ((pairs t1).map Prod.snd).Nodup) :
    t1 = t2 := by
  induction t1 generalizing t2 with
  | null =>
    cases t2 with
    | null => rfl
    | node v p l r => exact absurd ((hm (v, p)).2 (by simp [pairs])) (by simp [pairs])
  | node v p l r ihl ihr =>
    cases t2 with
    | null => exact absurd ((hm (v, p)).1 (by simp [pairs])) (by simp [pairs])
    | node v2 p2 l2 r2 =>
      have m0 : (v, p) ∈ pairs (node v p l r) := by simp [pairs]
      have m1 : (v, p) ∈ pairs (node v2 p2 l2 r2) := (hm _).1 m0
      have m2 : (v2, p2) ∈ pairs (node v p l r) := (hm _).2 (by simp [pairs])
      have hp : p2 = p := le_antisymm (Heap.root_max hh1 _ m2) (Heap.root_max hh2 _ m1)
      have hpair : (v2, p2) = (v, p) := List.inj_on_of_nodup_map hd m2 m0 hp
      injection hpair with hv _
      subst hv
      subst hp
      have hl : ∀ y, y ∈ pairs l ↔ y ∈ pairs l2 := fun y => by
        rw [mem_pairs_left_iff ho1, mem_pairs_left_iff ho2, hm y]
      have hr : ∀ y, y ∈ pairs r ↔ y ∈ pairs r2 := fun y => by
        rw [mem_pairs_right_iff ho1, mem_pairs_right_iff ho2, hm y]
      have hdl : ((pairs l).map Prod.snd).Nodup :=
        hd.sublist ((List.sublist_append_left _ _).map _)
      have hdr : ((pairs r).map Prod.snd).Nodup :=
        hd.sublist (((List.sublist_cons_self _ _).trans (List.sublist_append_right _ _)).map _)
      rw [ihl l2 ho1.2.2.1 hh1.2.2.1 ho2.2.2.1 hh2.2.2.1 hl hdl,
        ihr r2 ho1.2.2.2 hh1.2.2.2 ho2.2.2.2 hh2.2.2.2 hr hdr]

end node_ptr

namespace treap

open node_ptr

variable {K P : Type}

/-- Inserting a list of pairs with fresh, pairwise distinct values: both
invariants are kept, the tree stores the old pairs and the new ones, and
`Size` grows by the length of the list. -/
theorem run_inserts [LinearOrder K] [LinearOrder P] (l : List (K × P)) (t : treap K P)
    (ho : Ordered t.Root) (hh : Heap t.Root) (hv : (l.map Prod.fst).Nodup)
    (hf : ∀ y ∈ l, y.1 ∉ values t.Root) :
    Ordered (t.run (l.map fun y => Op.insert y.1 y.2)).1.Root ∧
    Heap (t.run (l.map fun y => Op.insert y.1 y.2)).1.Root ∧
    (pairs (t.run (l.map fun y => Op.insert y.1 y.2)).1.Root).Perm (pairs t.Root ++ l) ∧
    (t.run (l.map fun y => Op.insert y.1 y.2)).1.Size = t.Size + l.length := by
  induction l generalizing t with
  | nil => simp [treap.run, ho, hh]
  | cons y l ih =>
    obtain ⟨v, p⟩ := y
    have hvt : v ∉ values t.Root := hf (v, p) (List.mem_cons_self _ _)
    have hx : search t.Root v = null := (search_eq_null_iff t.Root v ho).2 hvt
    rw [List.map_cons, List.nodup_cons] at hv
    have hstep : (t.run (((v, p) :: l).map fun y => Op.insert y.1 y.2)).1 =
        ((t.insert v p).1.run (l.map fun y => Op.insert y.1 y.2)).1 := rfl
    rw [hstep, treap.insert_of_search_null t v p hx]
    have hf2 : ∀ y ∈ l, y.1 ∉ values
        (merge (split t.Root v).1 (merge (node v p null null) (split t.Root v).2)) := by
      intro y hy hmem
      rw [mem_values_insert_root] at hmem
      rcases hmem with hmem | hmem
      · have hy1 : y.1 ∈ l.map Prod.fst := List.mem_map_of_mem Prod.fst hy
        rw [hmem] at hy1
        exact hv.1 hy1
      · exact hf y (List.mem_cons_of_mem _ hy) hmem
    obtain ⟨k1, k2, k3, k4⟩ := ih ⟨_, t.Size + 1⟩ (ordered_insert_root t.Root v p ho hvt)
      (heap_insert_root t.Root v p hh) hv.2 hf2
    refine ⟨k1, k2, ?_, ?_⟩
    · refine k3.trans ?_
      refine ((pairs_insert_root_perm t.Root v p).append_right l).trans ?_
      have hmid : (pairs t.Root ++ (v, p) :: l).Perm ((v, p) :: (pairs t.Root ++ l)) :=
        List.perm_middle
      exact hmid.symm
    · rw [k4, List.length_cons]
      show t.Size + 1 + l.length = t.Size + (l.length + 1)
      omega

end treap

/-! ## The claims of the specification -/

section Claims

open node_ptr

variable {K P : Type}

/-- Claim C1. On a tree with the order invariant, `lower_bound(v)` returns a node
that holds the minimum stored value `>= v`, and it returns `nullptr` (absent)
exactly when every stored value is `< v`; in particular on the empty tree. -/
theorem lower_bound_min_ge [LinearOrder K] (t : node_ptr K P) (v : K) (h : Ordered t) :
    (∀ w p l r, lower_bound t v = node w p l r →
      w ∈ values t ∧ v ≤ w ∧ ∀ y ∈ values t, v ≤ y → w ≤ y) ∧
    (lower_bound t v = null ↔ ∀ y ∈ values t, y < v) ∧
    lower_bound (null : node_ptr K P) v = null := by
  obtain ⟨h1, h2⟩ := lower_bound_spec t v h
  refine ⟨h2, ⟨h1, ?_⟩, rfl⟩
  intro hall
  cases hlb : lower_bound t v with
  | null => rfl
  | node w p l r =>
    obtain ⟨m1, m2, _⟩ := h2 w p l r hlb
    exact absurd (hall w m1) (not_lt.2 m2)

/-- Scenario 4: after `erase(3)` the lower bound of `3` is the node holding `4`. -/
theorem lower_bound_min_ge_witness :
    Ordered scenario4.Root ∧ lower_bound scenario4.Root 3 = node 4 7 null (node 5 5 null null) ∧
    ((4 : Int) ∈ values scenario4.Root ∧ (3 : Int) ≤ 4 ∧
      ∀ y ∈ values scenario4.Root, 3 ≤ y → 4 ≤ y) :=
  ⟨by decide, by decide,
    (lower_bound_min_ge scenario4.Root 3 (by decide)).1 4 7 null (node 5 5 null null)
      (by decide)⟩

/-- One request keeps the container coupled to the reference set and returns
the same boolean. -/
theorem step_refines [LinearOrder K] [LinearOrder P] (t : treap K P) (s : RefSet K)
    (op : Op K P) (ho : Ordered t.Root) (hs : t.SizeInv)
    (hm : ∀ v, v ∈ values t.Root ↔ v ∈ s) :
    (t.step op).2 = (RefSet.step s op).2 ∧ Ordered (t.step op).1.Root ∧
      (t.step op).1.SizeInv ∧ ∀ v, v ∈ values (t.step op).1.Root ↔ v ∈ (RefSet.step s op).1 := by
  cases op with
  | insert x p =>
    by_cases hx : search t.Root x = null
    · have hx2 : x ∉ values t.Root := (search_eq_null_iff t.Root x ho).1 hx
      have hx3 : x ∉ s := fun h => hx2 ((hm x).2 h)
      simp only [treap.step, RefSet.step, treap.insert_of_search_null t x p hx]
      refine ⟨by simp [hx3], ordered_insert_root t.Root x p ho hx2, ?_, ?_⟩
      · simp only [treap.SizeInv, numNodes_insert_root]
        rw [hs]
      · intro v
        rw [mem_values_insert_root, Finset.mem_insert, hm v]
    · have hx2 : x ∈ values t.Root := search_mem t.Root x hx
      have hx3 : x ∈ s := (hm x).1 hx2
      simp only [treap.step, RefSet.step, treap.insert_of_search_ne_null t x p hx]
      refine ⟨by simp [hx3], ho, hs, ?_⟩
      intro v
      rw [Finset.mem_insert, hm v]
      constructor
      · exact Or.inr
      · rintro (rfl | h)
        · exact hx3
        · exact h
  | erase x =>
    by_cases hx : search t.Root x = null
    · have hx2 : x ∉ values t.Root := (search_eq_null_iff t.Root x ho).1 hx
      have hx3 : x ∉ s := fun h => hx2 ((hm x).2 h)
      simp only [treap.step, RefSet.step, treap.erase_of_search_null t x hx]
      refine ⟨by simp [hx3], ho, hs, ?_⟩
      intro v
      rw [Finset.mem_erase, hm v]
      constructor
      · intro h
        exact ⟨fun e => hx3 (e ▸ h), h⟩
      · exact fun h => h.2
    · have hx2 : x ∈ values t.Root := search_mem t.Root x hx
      have hx3 : x ∈ s := (hm x).1 hx2
      have hn := numNodes_erase t.Root x false hx
      simp only [treap.step, RefSet.step, treap.erase_of_search_ne_null t x hx]
      refine ⟨by simp [hx3], ordered_erase t.Root x false ho, ?_, ?_⟩
      · have h0 : t.Size = numNodes t.Root := hs
        have h1 : t.Size ≠ 0 := by omega
        simp only [treap.SizeInv, h1, if_false]
        omega
      · intro v
        rw [values_erase t.Root x false ho, List.mem_filter, Finset.mem_erase, hm v]
        simp [and_comm]

/-- A sequence of requests keeps the container coupled to the reference set and
returns the same booleans. -/
theorem run_refines [LinearOrder K] [LinearOrder P] (ops : List (Op K P)) (t : treap K P)
    (s : RefSet K) (ho : Ordered t.Root) (hs : t.SizeInv)
    (hm : ∀ v, v ∈ values t.Root ↔ v ∈ s) :
    (t.run ops).2 = (RefSet.run s ops).2 ∧ Ordered (t.run ops).1.Root ∧
      (t.run ops).1.SizeInv ∧ ∀ v, v ∈ values (t.run ops).1.Root ↔ v ∈ (RefSet.run s ops).1 := by
  induction ops generalizing t s with
  | nil => exact ⟨rfl, ho, hs, hm⟩
  | cons op ops ih =>
    obtain ⟨h1, h2, h3, h4⟩ := step_refines t s op ho hs hm
    obtain ⟨k1, k2, k3, k4⟩ := ih (t.step op).1 (RefSet.step s op).1 h2 h3 h4
    refine ⟨?_, k2, k3, k4⟩
    simp only [treap.run, RefSet.run, h1, k1]

/-- What an observer sees on a container coupled to a reference set. -/
theorem observations_agree [LinearOrder K] (t : treap K P) (s : RefSet K)
    (ho : Ordered t.Root) (hs : t.SizeInv) (hm : ∀ v, v ∈ values t.Root ↔ v ∈ s) :
    t.size = RefSet.size s ∧ (∀ v, t.count v = RefSet.count s v) ∧
      values t.Root = RefSet.enumerate s := by
  have hset : s = (values t.Root).toFinset := by
    ext v
    rw [List.mem_toFinset, hm v]
  have hnd : (values t.Root).Nodup := ho.nodup
  have hsorted : (values t.Root).Sorted (fun x y => x ≤ y) :=
    ((ordered_iff_pairwise t.Root).1 ho).imp (fun h => le_of_lt h)
  refine ⟨?_, ?_, ?_⟩
  · have h0 : t.Size = numNodes t.Root := hs
    simp only [treap.size, RefSet.size, hset, List.toFinset_card_of_nodup hnd, h0,
      numNodes_eq_length]
  · intro v
    rw [treap.count_eq t v ho]
    simp only [RefSet.count, hm v]
  · simp only [RefSet.enumerate, hset]
    exact ((List.toFinset_sort (fun x y => x ≤ y) hnd).2 hsorted).symm

/-- Claim C2. Driven from the empty container by any sequence of insert/erase
requests, with any levels drawn, the treap returns the same booleans as the
reference set, and after every step (every prefix of the sequence) `size()` is
the cardinality of the reference, `count(v)` its membership of `v`, and the
in-order enumeration of the tree is the reference in increasing order. -/
theorem run_agrees_with_reference [LinearOrder K] [LinearOrder P] (ops : List (Op K P)) :
    (treap.run treap.empty ops).2 = (RefSet.run RefSet.empty ops).2 ∧
    ∀ n : Nat,
      (treap.run treap.empty (ops.take n)).1.size =
          RefSet.size (RefSet.run RefSet.empty (ops.take n)).1 ∧
      (∀ v, (treap.run treap.empty (ops.take n)).1.count v =
          RefSet.count (RefSet.run RefSet.empty (ops.take n)).1 v) ∧
      values (treap.run treap.empty (ops.take n)).1.Root =
          RefSet.enumerate (RefSet.run RefSet.empty (ops.take n)).1 := by
  have hbase : ∀ l : List (Op K P),
      (treap.run treap.empty l).2 = (RefSet.run RefSet.empty l).2 ∧
      Ordered (treap.run treap.empty l).1.Root ∧ (treap.run treap.empty l).1.SizeInv ∧
      ∀ v, v ∈ values (treap.run treap.empty l).1.Root ↔ v ∈ (RefSet.run RefSet.empty l).1 :=
    fun l => run_refines l treap.empty RefSet.empty trivial rfl
      (fun v => by simp [treap.empty, RefSet.empty, values])
  refine ⟨(hbase ops).1, fun n => ?_⟩
  obtain ⟨_, h2, h3, h4⟩ := hbase (ops.take n)
  exact observations_agree _ _ h2 h3 h4

/-- Claim C3. The order invariant holds for the empty container and is
re-established by `insert(v)` (whatever level is drawn), `erase(v)` and
`clear()`: left subtrees hold strictly smaller values, right subtrees strictly
greater ones, and no two nodes hold equal values.  The priority invariant of
the starting tree is not needed. -/
theorem order_invariant_preserved [LinearOrder K] [LinearOrder P] (t : treap K P) (v : K)
    (p : P) (ho : Ordered t.Root) :
    (Ordered (treap.empty : treap K P).Root ∧ (values (treap.empty : treap K P).Root).Nodup) ∧
    (Ordered (t.insert v p).1.Root ∧ (values (t.insert v p).1.Root).Nodup) ∧
    (Ordered (t.erase v).1.Root ∧ (values (t.erase v).1.Root).Nodup) ∧
    (Ordered t.clear.Root ∧ (values t.clear.Root).Nodup) := by
  have hins : Ordered (t.insert v p).1.Root := by
    by_cases hx : search t.Root v = null
    · rw [treap.insert_of_search_null t v p hx]
      exact ordered_insert_root t.Root v p ho ((search_eq_null_iff t.Root v ho).1 hx)
    · rw [treap.insert_of_search_ne_null t v p hx]
      exact ho
  have hers : Ordered (t.erase v).1.Root := by
    by_cases hx : search t.Root v = null
    · rw [treap.erase_of_search_null t v hx]
      exact ho
    · rw [treap.erase_of_search_ne_null t v hx]
      exact ordered_erase t.Root v false ho
  have hnil : Ordered (null : node_ptr K P) := trivial
  exact ⟨⟨hnil, hnil.nodup⟩, ⟨hins, hins.nodup⟩, ⟨hers, hers.nodup⟩, ⟨hnil, hnil.nodup⟩⟩

/-- Scenario 1 continued by `insert(4)` with level 6, or else by `erase(4)`. -/
theorem order_invariant_preserved_witness :
    Ordered scenario1.Root ∧
    (Ordered (scenario1.insert 4 6).1.Root ∧ (values (scenario1.insert 4 6).1.Root).Nodup) ∧
    (Ordered (scenario1.erase 4).1.Root ∧ (values (scenario1.erase 4).1.Root).Nodup) :=
  ⟨by decide, (order_invariant_preserved scenario1 4 6 (by decide)).2.1,
    (order_invariant_preserved scenario1 4 6 (by decide)).2.2.1⟩

/-- Claim C4. The priority invariant holds for the empty container and is
re-established by `insert(v)` for every level drawn (ties with levels already
in the tree included), by `erase(v)` and by `clear()`: every node has a level
`>=` the level of each direct child.  The order invariant of the starting tree
is not needed. -/
theorem priority_invariant_preserved [LinearOrder K] [LinearOrder P] (t : treap K P) (v : K)
    (p : P) (hh : Heap t.Root) :
    Heap (treap.empty : treap K P).Root ∧ Heap (t.insert v p).1.Root ∧
    Heap (t.erase v).1.Root ∧ Heap t.clear.Root := by
  refine ⟨trivial, ?_, ?_, trivial⟩
  · by_cases hx : search t.Root v = null
    · rw [treap.insert_of_search_null t v p hx]
      exact heap_insert_root t.Root v p hh
    · rw [treap.insert_of_search_ne_null t v p hx]
      exact hh
  · by_cases hx : search t.Root v = null
    · rw [treap.erase_of_search_null t v hx]
      exact hh
    · rw [treap.erase_of_search_ne_null t v hx]
      exact heap_erase t.Root v false hh

/-- Scenario 4 continued by `insert(3)` with the level 7 that the node holding
`4` already has, or else by `erase(3)`. -/
theorem priority_invariant_preserved_witness :
    Heap scenario4.Root ∧ Heap (scenario4.insert 3 7).1.Root ∧
    Heap (scenario4.erase 3).1.Root :=
  ⟨by decide, (priority_invariant_preserved scenario4 3 7 (by decide)).2.1,
    (priority_invariant_preserved scenario4 3 7 (by decide)).2.2.1⟩

/-- Claim C5. `Size` is `0` in a newly constructed container, and from every
state in which `Size` is the number of nodes reachable from `Root` this still
holds after `insert(v)`, `erase(v)` and `clear()`; `erase` never decrements a
`Size` of `0`: it succeeds only when `Size` is positive.  The order invariant
is not needed. -/
theorem size_invariant_preserved [LinearOrder K] [LinearOrder P] (t : treap K P) (v : K)
    (p : P) (hs : t.SizeInv) :
    (treap.empty : treap K P).size = 0 ∧ (treap.empty : treap K P).SizeInv ∧
    (t.insert v p).1.SizeInv ∧ (t.erase v).1.SizeInv ∧ t.clear.SizeInv ∧
    ((t.erase v).2 = true → t.Size ≠ 0) ∧ (t.Size = 0 → (t.erase v).1.Size = 0) := by
  have h0 : t.Size = numNodes t.Root := hs
  refine ⟨rfl, rfl, ?_, ?_, rfl, ?_, ?_⟩
  · by_cases hx : search t.Root v = null
    · rw [treap.insert_of_search_null t v p hx]
      simp only [treap.SizeInv, numNodes_insert_root, h0]
    · rw [treap.insert_of_search_ne_null t v p hx]
      exact hs
  · by_cases hx : search t.Root v = null
    · rw [treap.erase_of_search_null t v hx]
      exact hs
    · rw [treap.erase_of_search_ne_null t v hx]
      have hn := numNodes_erase t.Root v false hx
      have h1 : t.Size ≠ 0 := by omega
      simp only [treap.SizeInv, h1, if_false]
      omega
  · intro he
    by_cases hx : search t.Root v = null
    · rw [treap.erase_of_search_null t v hx] at he
      cases he
    · have hn := numNodes_erase t.Root v false hx
      omega
  · intro hz
    by_cases hx : search t.Root v = null
    · rw [treap.erase_of_search_null t v hx]
      exact hz
    · have hn := numNodes_erase t.Root v false hx
      omega

/-- Scenario 1 continued by `insert(4)` with level 2, or else by `erase(4)`. -/
theorem size_invariant_preserved_witness :
    scenario1.SizeInv ∧ (scenario1.insert 4 2).1.SizeInv ∧ (scenario1.erase 4).1.SizeInv :=
  ⟨by decide, (size_invariant_preserved scenario1 4 2 (by decide)).2.2.1,
    (size_invariant_preserved scenario1 4 2 (by decide)).2.2.2.1⟩

/-- Claim C6. On a tree with the order invariant, `insert(v)` of a value that is
not stored returns `true`; afterwards `count(v) == 1`, `size()` has grown by
exactly `1` (`Size` being the node count, as it is in every state of the
container, so that the `size_t` increment does not wrap), and `count(w)` is
unchanged for every other value `w`. -/
theorem insert_absent [LinearOrder K] [LinearOrder P] (t : treap K P) (v : K) (p : P)
    (ho : Ordered t.Root) (hv : v ∉ values t.Root) :
    (t.insert v p).2 = true ∧ (t.insert v p).1.count v = 1 ∧
    (t.SizeInv → (t.insert v p).1.size = t.size + 1 ∧ (t.insert v p).1.SizeInv) ∧
    ∀ w, w ≠ v → (t.insert v p).1.count w = t.count w := by
  have hx : search t.Root v = null := (search_eq_null_iff t.Root v ho).2 hv
  have ho2 := ordered_insert_root t.Root v p ho hv
  rw [treap.insert_of_search_null t v p hx]
  refine ⟨rfl, ?_, fun hs => ⟨rfl, ?_⟩, ?_⟩
  · rw [treap.count_eq _ v ho2]
    simp [mem_values_insert_root]
  · have h0 : t.Size = numNodes t.Root := hs
    simp only [treap.SizeInv, numNodes_insert_root, h0]
  · intro w hw
    rw [treap.count_eq _ w ho2, treap.count_eq t w ho]
    simp [mem_values_insert_root, hw]

/-- Scenario 1 (three nodes, `Size` 3) continued by `insert(7)` with level 6. -/
theorem insert_absent_witness :
    (Ordered scenario1.Root ∧ (7 : Int) ∉ values scenario1.Root ∧ scenario1.SizeInv) ∧
    (scenario1.insert 7 6).2 = true ∧ (scenario1.insert 7 6).1.count 7 = 1 ∧
    ((scenario1.insert 7 6).1.size = scenario1.size + 1 ∧ (scenario1.insert 7 6).1.SizeInv) ∧
    ∀ w, w ≠ 7 → (scenario1.insert 7 6).1.count w = scenario1.count w :=
  ⟨⟨by decide, by decide, by decide⟩,
    (insert_absent scenario1 7 6 (by decide) (by decide)).1,
    (insert_absent scenario1 7 6 (by decide) (by decide)).2.1,
    (insert_absent scenario1 7 6 (by decide) (by decide)).2.2.1 (by decide),
    (insert_absent scenario1 7 6 (by decide) (by decide)).2.2.2⟩

/-- Claim C7. On a tree with the order invariant, `insert(v)` of a value that is
already stored returns `false` and mutates nothing: `Root` (shape and levels
included) and `Size` are what they were, hence so are `size()` and every
`count(w)`. -/
theorem insert_present [LinearOrder K] [LinearOrder P] (t : treap K P) (v : K) (p : P)
    (ho : Ordered t.Root) (hv : v ∈ values t.Root) :
    (t.insert v p).2 = false ∧ (t.insert v p).1 = t ∧
    (t.insert v p).1.Root = t.Root ∧ (t.insert v p).1.Size = t.Size ∧
    (t.insert v p).1.size = t.size ∧ ∀ w, (t.insert v p).1.count w = t.count w := by
  have hx : search t.Root v ≠ null := fun h => (search_eq_null_iff t.Root v ho).1 h hv
  rw [treap.insert_of_search_ne_null t v p hx]
  exact ⟨rfl, rfl, rfl, rfl, rfl, fun _ => rfl⟩

/-- Scenario 2: a second `insert(5)`, here after scenario 1, with level 9. -/
theorem insert_present_witness :
    (Ordered scenario1.Root ∧ (5 : Int) ∈ values scenario1.Root) ∧
    (scenario1.insert 5 9).2 = false ∧ (scenario1.insert 5 9).1 = scenario1 :=
  ⟨⟨by decide, by decide⟩, (insert_present scenario1 5 9 (by decide) (by decide)).1,
    (insert_present scenario1 5 9 (by decide) (by decide)).2.1⟩

/-- Claim C8. On a tree with the order invariant, `erase(v)` returns `true` if
and only if `v` was stored; afterwards `count(v) == 0`; when it returned `true`,
`size()` has decreased by exactly `1` (`Size` being the node count, as it is in
every state of the container, the `size_t` decrement does not wrap); and
`count(w)` is unchanged for every other `w`. -/
theorem erase_correct [LinearOrder K] [LinearOrder P] (t : treap K P) (v : K)
    (ho : Ordered t.Root) :
    ((t.erase v).2 = true ↔ v ∈ values t.Root) ∧ (t.erase v).1.count v = 0 ∧
    (t.SizeInv → (t.erase v).2 = true → (t.erase v).1.size + 1 = t.size) ∧
    ∀ w, w ≠ v → (t.erase v).1.count w = t.count w := by
  by_cases hx : search t.Root v = null
  · have hv : v ∉ values t.Root := (search_eq_null_iff t.Root v ho).1 hx
    rw [treap.erase_of_search_null t v hx]
    refine ⟨by simp [hv], ?_, by simp, fun _ _ => rfl⟩
    rw [treap.count_eq t v ho]
    simp [hv]
  · have hv : v ∈ values t.Root := search_mem t.Root v hx
    have ho2 := ordered_erase t.Root v false ho
    have hn := numNodes_erase t.Root v false hx
    rw [treap.erase_of_search_ne_null t v hx]
    refine ⟨by simp [hv], ?_, ?_, ?_⟩
    · rw [treap.count_eq _ v ho2]
      simp [values_erase t.Root v false ho]
    · intro hs _
      have h0 : t.Size = numNodes t.Root := hs
      have h1 : t.Size ≠ 0 := by omega
      simp only [treap.size, h1, if_false]
      omega
    · intro w hw
      rw [treap.count_eq _ w ho2, treap.count_eq t w ho]
      simp [values_erase t.Root v false ho, hw]

/-- Scenario 4 continued by `erase(2)`, which removes the root. -/
theorem erase_correct_witness :
    (Ordered scenario4.Root ∧ scenario4.SizeInv) ∧
    ((scenario4.erase 2).2 = true ↔ (2 : Int) ∈ values scenario4.Root) ∧
    (scenario4.erase 2).1.count 2 = 0 ∧ (scenario4.erase 2).1.size + 1 = scenario4.size :=
  ⟨⟨by decide, by decide⟩, (erase_correct scenario4 2 (by decide)).1,
    (erase_correct scenario4 2 (by decide)).2.1,
    (erase_correct scenario4 2 (by decide)).2.2.1 (by decide) (by decide)⟩

/-- Claim C9. `erase(v)` of a value that is not stored (the empty tree
included) returns `false` and is a no-op: the tree rebuilt by the recursive
descent is identical to the original one and `Size` is unchanged.  The order
invariant is not needed. -/
theorem erase_absent [LinearOrder K] [LinearOrder P] (t : treap K P) (v : K)
    (hv : v ∉ values t.Root) :
    (t.erase v).2 = false ∧ node_ptr.erase t.Root v false = (t.Root, false) ∧
    (t.erase v).1.Root = t.Root ∧ (t.erase v).1.Size = t.Size ∧ (t.erase v).1 = t := by
  have hx : search t.Root v = null := by
    by_contra h
    exact hv (search_mem t.Root v h)
  have h2 : (node_ptr.erase t.Root v false).2 = false := by
    have := (erase_snd t.Root v false).not
    simpa [hx] using this
  rw [treap.erase_of_search_null t v hx]
  exact ⟨rfl, Prod.ext (erase_fst_of_search_null t.Root v false hx) h2, rfl, rfl, rfl⟩

/-- Scenario 1 (values 3, 5, 8) followed by `erase(7)`: the descent passes the
nodes holding 3, 5 and 8, rebuilds each of them and ends at an empty left
child; the rebuilt tree is the original one. -/
theorem erase_absent_witness :
    (7 : Int) ∉ values scenario1.Root ∧
    (scenario1.erase 7).2 = false ∧
    node_ptr.erase scenario1.Root 7 false = (scenario1.Root, false) ∧
    (scenario1.erase 7).1.Root = scenario1.Root ∧
    (scenario1.erase 7).1.Size = scenario1.Size ∧ (scenario1.erase 7).1 = scenario1 :=
  ⟨by decide, erase_absent scenario1 7 (by decide)⟩

/-- Claim C10. After `clear()`, from every container state, the root is empty,
`size() == 0`, `count(v) == 0` for every `v`, and `lower_bound(v)` is absent
for every `v`. -/
theorem clear_correct [LinearOrder K] (t : treap K P) :
    t.clear.Root = null ∧ t.clear.size = 0 ∧ (∀ v, t.clear.count v = 0) ∧
    ∀ v, lower_bound t.clear.Root v = null :=
  ⟨rfl, rfl, fun _ => rfl, fun _ => rfl⟩

/-- Claim C12. For trees `a` and `b` that each satisfy the order and priority
invariants, with every value of `a` strictly below every value of `b`,
`merge(a, b)` contains the union: its in-order values are those of `a`
followed by those of `b`, and it satisfies both invariants. -/
theorem merge_correct [LinearOrder K] [LinearOrder P] (a b : node_ptr K P)
    (hoa : Ordered a) (hha : Heap a) (hob : Ordered b) (hhb : Heap b)
    (hab : ∀ x ∈ values a, ∀ y ∈ values b, x < y) :
    values (merge a b) = values a ++ values b ∧ Ordered (merge a b) ∧ Heap (merge a b) :=
  ⟨values_merge a b, ordered_merge hoa hob hab, heap_merge a b hha hhb⟩

/-- Merging the tree `{1, 3}` with the tree `{5, 8}` whose root has the same
level as the root of the first. -/
theorem merge_correct_witness :
    values (merge (node (3 : Int) (6 : Nat) (node 1 2 null null) null)
        (node 5 6 null (node 8 1 null null))) = [1, 3, 5, 8] ∧
    Ordered (merge (node (3 : Int) (6 : Nat) (node 1 2 null null) null)
        (node 5 6 null (node 8 1 null null))) ∧
    Heap (merge (node (3 : Int) (6 : Nat) (node 1 2 null null) null)
        (node 5 6 null (node 8 1 null null))) :=
  merge_correct (node (3 : Int) (6 : Nat) (node 1 2 null null) null)
    (node 5 6 null (node 8 1 null null)) (by decide) (by decide) (by decide) (by decide)
    (by decide)

/-- Claim C13. For a tree with the order and priority invariants and any
pivot, `split` yields `(a, b)` where `a` holds exactly the stored values
`<= pivot` (a value equal to the pivot lands in `a`), `b` exactly those
`> pivot`, nothing is lost or duplicated (in-order of `a` followed by in-order
of `b` is the in-order of the tree), and both parts satisfy both invariants;
splitting the empty tree gives `(nullptr, nullptr)`. -/
theorem split_correct [LinearOrder K] [LinearOrder P] (t : node_ptr K P) (pivot : K)
    (ho : Ordered t) (hh : Heap t) :
    (∀ y, y ∈ values (split t pivot).1 ↔ y ∈ values t ∧ y ≤ pivot) ∧
    (∀ y, y ∈ values (split t pivot).2 ↔ y ∈ values t ∧ pivot < y) ∧
    values (split t pivot).1 ++ values (split t pivot).2 = values t ∧
    (Ordered (split t pivot).1 ∧ Heap (split t pivot).1) ∧
    (Ordered (split t pivot).2 ∧ Heap (split t pivot).2) ∧
    split (null : node_ptr K P) pivot = (null, null) := by
  have hv := values_split t pivot
  have hle := split_fst_le t pivot ho
  have hgt := split_snd_gt t pivot ho
  refine ⟨?_, ?_, hv, ⟨(ordered_split t pivot ho).1, (heap_split t pivot hh).1⟩,
    ⟨(ordered_split t pivot ho).2, (heap_split t pivot hh).2⟩, rfl⟩
  · intro y
    constructor
    · intro hy
      exact ⟨by rw [← hv]; exact List.mem_append_left _ hy, hle y hy⟩
    · rintro ⟨hy, hyp⟩
      rw [← hv, List.mem_append] at hy
      rcases hy with hy | hy
      · exact hy
      · exact absurd (hgt y hy) (not_lt.2 hyp)
  · intro y
    constructor
    · intro hy
      exact ⟨by rw [← hv]; exact List.mem_append_right _ hy, hgt y hy⟩
    · rintro ⟨hy, hyp⟩
      rw [← hv, List.mem_append] at hy
      rcases hy with hy | hy
      · exact absurd hyp (not_lt.2 (hle y hy))
      · exact hy

/-- Splitting scenario 4 (values 1, 2, 4, 5) at the stored pivot `2`. -/
theorem split_correct_witness :
    (Ordered scenario4.Root ∧ Heap scenario4.Root) ∧
    values (split scenario4.Root 2).1 = [1, 2] ∧ values (split scenario4.Root 2).2 = [4, 5] ∧
    (Ordered (split scenario4.Root 2).1 ∧ Heap (split scenario4.Root 2).1) ∧
    (Ordered (split scenario4.Root 2).2 ∧ Heap (split scenario4.Root 2).2) :=
  ⟨⟨by decide, by decide⟩, by decide, by decide,
    (split_correct scenario4.Root 2 (by decide) (by decide)).2.2.2.1,
    (split_correct scenario4.Root 2 (by decide) (by decide)).2.2.2.2.1⟩

/-- Claim C14. Root selection in `merge`: with an empty input the other input
is returned unchanged; for non-empty `a` and `b` the result is `a`'s root,
with `a`'s left subtree untouched and `merge(a.Right, b)` on its right, exactly
when `a`'s level is strictly greater than `b`'s; otherwise, a tie included,
it is `b`'s root with `b`'s right subtree untouched and `merge(a, b.Left)` on
its left. -/
theorem merge_root_selection [LinearOrder P] (a b : node_ptr K P) (va : K) (pa : P)
    (la ra : node_ptr K P) (vb : K) (pb : P) (lb rb : node_ptr K P) :
    merge null b = b ∧ merge a null = a ∧
    (merge (node va pa la ra) (node vb pb lb rb) =
        node va pa la (merge ra (node vb pb lb rb)) ↔ pa > pb) ∧
    (merge (node va pa la ra) (node vb pb lb rb) =
        node vb pb (merge (node va pa la ra) lb) rb ↔ ¬ pa > pb) ∧
    (pa = pb → merge (node va pa la ra) (node vb pb lb rb) =
        node vb pb (merge (node va pa la ra) lb) rb) := by
  refine ⟨merge_null_left b, merge_null_right a, ?_, ?_, ?_⟩
  · constructor
    · intro h
      by_contra hlt
      rw [merge_node_node, if_neg hlt] at h
      injection h with _ _ h3 _
      have := congrArg numNodes h3
      rw [numNodes_merge] at this
      simp only [numNodes] at this
      omega
    · intro h
      rw [merge_node_node, if_pos h]
  · constructor
    · intro h hlt
      rw [merge_node_node, if_pos hlt] at h
      injection h with _ _ _ h4
      have := congrArg numNodes h4
      rw [numNodes_merge] at this
      simp only [numNodes] at this
      omega
    · intro h
      rw [merge_node_node, if_neg h]
  · intro h
    rw [merge_node_node, if_neg (by rw [h]; exact lt_irrefl pb)]

/-- Claim C15. On a tree with the order invariant, `search` returns a node if
and only if the value is stored, and the node it returns holds that value;
hence `count(v)` is `1` when `v` is stored and `0` otherwise. -/
theorem search_correct [LinearOrder K] (t : treap K P) (v : K) (ho : Ordered t.Root) :
    (search t.Root v ≠ null ↔ v ∈ values t.Root) ∧
    (∀ w p l r, search t.Root v = node w p l r → w = v) ∧
    (v ∈ values t.Root → t.count v = 1) ∧ (v ∉ values t.Root → t.count v = 0) := by
  refine ⟨?_, fun w p l r h => search_value t.Root v h, ?_, ?_⟩
  · rw [Ne, search_eq_null_iff t.Root v ho, not_not]
  · intro h
    rw [treap.count_eq t v ho, if_pos h]
  · intro h
    rw [treap.count_eq t v ho, if_neg h]

/-- Scenario 1 (values 3, 5, 8): `8` is found, `7` is not. -/
theorem search_correct_witness :
    Ordered scenario1.Root ∧ (search scenario1.Root 8 ≠ null ↔ (8 : Int) ∈ values scenario1.Root) ∧
    scenario1.count 8 = 1 ∧ scenario1.count 7 = 0 :=
  ⟨by decide, (search_correct scenario1 8 (by decide)).1,
    (search_correct scenario1 8 (by decide)).2.2.1 (by decide),
    (search_correct scenario1 7 (by decide)).2.2.2 (by decide)⟩

/-- Claim C20. Height bounds with no invariant assumed: the height of
`merge(a, b)` is at most the sum of the heights of `a` and `b`, and each part
of `split(t, pivot)` is at most as high as `t`. -/
theorem height_bounds [LinearOrder K] [LinearOrder P] (a b t : node_ptr K P) (pivot : K) :
    height (merge a b) ≤ height a + height b ∧
    height (split t pivot).1 ≤ height t ∧ height (split t pivot).2 ≤ height t := by
  refine ⟨?_, ?_⟩
  · induction a, b using merge_induction with
    | hl b => simp [merge_null_left, height]
    | hr a => simp [merge_null_right, height]
    | ha va pa la ra vb pb lb rb h ih =>
      rw [merge_node_node, if_pos h]
      simp only [height] at ih ⊢
      omega
    | hb va pa la ra vb pb lb rb h ih =>
      rw [merge_node_node, if_neg h]
      simp only [height] at ih ⊢
      omega
  · induction t with
    | null => simp [split, height]
    | node v p l r ihl ihr =>
      by_cases hv : v ≤ pivot
      · simp only [split, hv, if_true, height]
        omega
      · simp only [split, hv, if_false, height]
        omega

/-- Claim C11, as far as the code carries it.  Scenario 1 over `treap<int>`: from
the empty container, whatever three levels are drawn, `insert(5); insert(3);
insert(8)` all return `true`, and then `size() == 3`, `count(3) == 1`,
`count(7) == 0`, and the recursive descent `lower_bound(Root, 6)` of lines
131-144 ends at a node holding `8`.  The public `lower_bound(value) const` of
lines 191-198, which should hand that value out, has no behaviour to embed: as
written it calls the non-const overload from a const member and returns the
address `&node->Value` where a `std::optional<value_type>` is expected, so it
is ill-formed once instantiated. -/
theorem scenario_insert_5_3_8 [LinearOrder P] (p1 p2 p3 : P) :
    ((treap.empty : treap Int P).insert 5 p1).2 = true ∧
    (((treap.empty : treap Int P).insert 5 p1).1.insert 3 p2).2 = true ∧
    ((((treap.empty : treap Int P).insert 5 p1).1.insert 3 p2).1.insert 8 p3).2 = true ∧
    ((((treap.empty : treap Int P).insert 5 p1).1.insert 3 p2).1.insert 8 p3).1.size = 3 ∧
    ((((treap.empty : treap Int P).insert 5 p1).1.insert 3 p2).1.insert 8 p3).1.count 3 = 1 ∧
    ((((treap.empty : treap Int P).insert 5 p1).1.insert 3 p2).1.insert 8 p3).1.count 7 = 0 ∧
    ∃ p l r, lower_bound
      ((((treap.empty : treap Int P).insert 5 p1).1.insert 3 p2).1.insert 8 p3).1.Root 6 =
        node 8 p l r := by
  obtain ⟨h1, h2, h3, h4⟩ := run_refines [Op.insert (5 : Int) p1, Op.insert 3 p2, Op.insert 8 p3]
    treap.empty RefSet.empty trivial rfl (fun v => by simp [treap.empty, RefSet.empty, values])
  have hres : (RefSet.run (RefSet.empty : RefSet Int)
      [Op.insert (5 : Int) p1, Op.insert 3 p2, Op.insert 8 p3]).2 = [true, true, true] := by
    simp [RefSet.run, RefSet.step, RefSet.empty]
  have hmem : ∀ v : Int, v ∈ (RefSet.run (RefSet.empty : RefSet Int)
      [Op.insert (5 : Int) p1, Op.insert 3 p2, Op.insert 8 p3]).1 ↔ v = 8 ∨ v = 3 ∨ v = 5 := by
    intro v
    simp [RefSet.run, RefSet.step, RefSet.empty]
  have hcard : RefSet.size (RefSet.run (RefSet.empty : RefSet Int)
      [Op.insert (5 : Int) p1, Op.insert 3 p2, Op.insert 8 p3]).1 = 3 := by
    simp only [RefSet.run, RefSet.step, RefSet.empty, RefSet.size]
    rfl
  have hbools : [((treap.empty : treap Int P).insert 5 p1).2,
      (((treap.empty : treap Int P).insert 5 p1).1.insert 3 p2).2,
      ((((treap.empty : treap Int P).insert 5 p1).1.insert 3 p2).1.insert 8 p3).2] =
      [true, true, true] := h1.trans hres
  have hord : Ordered
      ((((treap.empty : treap Int P).insert 5 p1).1.insert 3 p2).1.insert 8 p3).1.Root := h2
  have hin : ∀ v : Int, v ∈ values
      ((((treap.empty : treap Int P).insert 5 p1).1.insert 3 p2).1.insert 8 p3).1.Root ↔
      v = 8 ∨ v = 3 ∨ v = 5 := fun v => (h4 v).trans (hmem v)
  have hsize : ((((treap.empty : treap Int P).insert 5 p1).1.insert 3 p2).1.insert 8 p3).1.size =
      3 := (observations_agree _ _ h2 h3 h4).1.trans hcard
  simp only [List.cons.injEq, and_true] at hbools
  refine ⟨hbools.1, hbools.2.1, hbools.2.2, hsize, ?_, ?_, ?_⟩
  · rw [treap.count_eq _ _ hord, if_pos ((hin 3).2 (Or.inr (Or.inl rfl)))]
  · rw [treap.count_eq _ _ hord, if_neg (fun h => by have := (hin 7).1 h; omega)]
  · obtain ⟨k1, k2⟩ := lower_bound_spec _ (6 : Int) hord
    cases hlb : lower_bound
        ((((treap.empty : treap Int P).insert 5 p1).1.insert 3 p2).1.insert 8 p3).1.Root 6 with
    | null =>
      have := k1 hlb 8 ((hin 8).2 (Or.inl rfl))
      omega
    | node w p l r =>
      obtain ⟨m1, m2, _⟩ := k2 w p l r hlb
      have hw : w = 8 := by
        rcases (hin w).1 m1 with h | h | h <;> omega
      exact ⟨p, l, r, by rw [hw]⟩

/-- Claim C16. Structural operations never change a stored `(Value, Level)`
pair: `merge` and `split` preserve the multiset of pairs of their inputs for
every tree; on a tree with the order invariant, `insert` of an absent `v` with
drawn level `p` adds exactly the pair `(v, p)`, and `erase` of a stored `v`
removes exactly the one pair whose value is `v`. -/
theorem pairs_preserved [LinearOrder K] [LinearOrder P] (a b : node_ptr K P) (pivot : K)
    (t : treap K P) (v : K) (p : P) (ho : Ordered t.Root) :
    ((pairs (merge a b) : Multiset (K × P)) =
        (pairs a : Multiset (K × P)) + (pairs b : Multiset (K × P))) ∧
    ((pairs (split a pivot).1 : Multiset (K × P)) + (pairs (split a pivot).2 : Multiset (K × P)) =
        (pairs a : Multiset (K × P))) ∧
    (v ∉ values t.Root →
      (pairs (t.insert v p).1.Root : Multiset (K × P)) =
        Multiset.cons (v, p) (pairs t.Root : Multiset (K × P))) ∧
    (v ∈ values t.Root →
      ∃ q, (v, q) ∈ pairs t.Root ∧ (∀ q2, (v, q2) ∈ pairs t.Root → q2 = q) ∧
        (pairs (t.erase v).1.Root : Multiset (K × P)) =
          Multiset.erase (pairs t.Root : Multiset (K × P)) (v, q)) := by
  refine ⟨?_, ?_, ?_, ?_⟩
  · rw [pairs_merge, Multiset.coe_add]
  · rw [Multiset.coe_add, pairs_split]
  · intro hv
    rw [treap.insert_of_search_null t v p ((search_eq_null_iff t.Root v ho).2 hv),
      Multiset.cons_coe]
    exact Multiset.coe_eq_coe.2 (pairs_insert_root_perm t.Root v p)
  · intro hv
    have hx : search t.Root v ≠ null := fun h => (search_eq_null_iff t.Root v ho).1 h hv
    obtain ⟨q, hq⟩ := pairs_erase_perm t.Root v false hx
    have hmemq : (v, q) ∈ pairs t.Root := hq.symm.subset (List.mem_cons_self _ _)
    have hnd : ((pairs t.Root).map Prod.fst).Nodup := by
      rw [← values_eq_map_pairs]
      exact ho.nodup
    refine ⟨q, hmemq, ?_, ?_⟩
    · intro q2 h2
      have := List.inj_on_of_nodup_map hnd h2 hmemq rfl
      exact congrArg Prod.snd this
    · rw [treap.erase_of_search_ne_null t v hx, Multiset.coe_eq_coe.2 hq, ← Multiset.cons_coe,
        Multiset.erase_cons_head]

/-- Scenario 4: `insert(3)` with level 2 adds the pair `(3, 2)`; `erase(4)`
removes the one pair that holds `4`. -/
theorem pairs_preserved_witness :
    (Ordered scenario4.Root ∧ (3 : Int) ∉ values scenario4.Root ∧
      (4 : Int) ∈ values scenario4.Root) ∧
    (pairs (scenario4.insert 3 2).1.Root : Multiset (Int × Nat)) =
      Multiset.cons (3, 2) (pairs scenario4.Root : Multiset (Int × Nat)) ∧
    ∃ q, ((4 : Int), q) ∈ pairs scenario4.Root ∧
      (∀ q2, ((4 : Int), q2) ∈ pairs scenario4.Root → q2 = q) ∧
      (pairs (scenario4.erase 4).1.Root : Multiset (Int × Nat)) =
        Multiset.erase (pairs scenario4.Root : Multiset (Int × Nat)) (4, q) :=
  ⟨⟨by decide, by decide, by decide⟩,
    (pairs_preserved scenario4.Root scenario4.Root 2 scenario4 3 2 (by decide)).2.2.1
      (by decide),
    (pairs_preserved scenario4.Root scenario4.Root 2 scenario4 4 2 (by decide)).2.2.2
      (by decide)⟩

/-- Claim C17. Shape uniqueness: inserting pairs with pairwise distinct values
and pairwise distinct levels into the empty container in any two orders gives
the same container; and any two trees that satisfy the order and priority
invariants and store the same pairs, with pairwise distinct levels, are
equal. -/
theorem shape_unique [LinearOrder K] [LinearOrder P] (l1 l2 : List (K × P))
    (hperm : l1.Perm l2) (hv : (l1.map Prod.fst).Nodup) (hp : (l1.map Prod.snd).Nodup) :
    (treap.run treap.empty (l1.map fun y => Op.insert y.1 y.2)).1 =
      (treap.run treap.empty (l2.map fun y => Op.insert y.1 y.2)).1 ∧
    ∀ t1 t2 : node_ptr K P, Ordered t1 → Heap t1 → Ordered t2 → Heap t2 →
      (∀ y, y ∈ pairs t1 ↔ y ∈ pairs t2) → ((pairs t1).map Prod.snd).Nodup → t1 = t2 := by
  refine ⟨?_, fun t1 t2 a1 a2 a3 a4 a5 a6 => eq_of_same_pairs t1 t2 a1 a2 a3 a4 a5 a6⟩
  have hv2 : (l2.map Prod.fst).Nodup := ((hperm.map Prod.fst).nodup_iff).1 hv
  obtain ⟨b1, b2, b3, b4⟩ := treap.run_inserts l1 (treap.empty : treap K P) trivial trivial hv
    (fun y _ => by simp [treap.empty, values])
  obtain ⟨c1, c2, c3, c4⟩ := treap.run_inserts l2 (treap.empty : treap K P) trivial trivial hv2
    (fun y _ => by simp [treap.empty, values])
  have b5 : (pairs (treap.run (treap.empty : treap K P)
      (l1.map fun y => Op.insert y.1 y.2)).1.Root).Perm l1 := by
    simpa [treap.empty, pairs] using b3
  have c5 : (pairs (treap.run (treap.empty : treap K P)
      (l2.map fun y => Op.insert y.1 y.2)).1.Root).Perm l2 := by
    simpa [treap.empty, pairs] using c3
  have hroot := eq_of_same_pairs _ _ b1 b2 c1 c2
    (fun y => (b5.mem_iff).trans ((hperm.mem_iff).trans (c5.mem_iff).symm))
    (((b5.map Prod.snd).nodup_iff).2 hp)
  have hsize : (treap.run (treap.empty : treap K P) (l1.map fun y => Op.insert y.1 y.2)).1.Size =
      (treap.run (treap.empty : treap K P) (l2.map fun y => Op.insert y.1 y.2)).1.Size := by
    rw [b4, c4, hperm.length_eq]
  cases h1 : (treap.run (treap.empty : treap K P) (l1.map fun y => Op.insert y.1 y.2)).1 with
  | mk r1 s1 =>
    cases h2 : (treap.run (treap.empty : treap K P) (l2.map fun y => Op.insert y.1 y.2)).1 with
    | mk r2 s2 =>
      rw [h1, h2] at hroot
      rw [h1, h2] at hsize
      simp only at hroot hsize
      rw [hroot, hsize]

/-- The pairs `(5, 6)`, `(3, 1)`, `(8, 9)` inserted in two different orders. -/
theorem shape_unique_witness :
    ([((5 : Int), (6 : Nat)), (3, 1), (8, 9)].Perm [(8, 9), (5, 6), (3, 1)] ∧
      ([((5 : Int), (6 : Nat)), (3, 1), (8, 9)].map Prod.fst).Nodup ∧
      ([((5 : Int), (6 : Nat)), (3, 1), (8, 9)].map Prod.snd).Nodup) ∧
    (treap.run treap.empty [Op.insert (5 : Int) (6 : Nat), Op.insert 3 1, Op.insert 8 9]).1 =
      (treap.run treap.empty [Op.insert (8 : Int) (9 : Nat), Op.insert 5 6, Op.insert 3 1]).1 :=
  ⟨⟨by decide, by decide, by decide⟩,
    (shape_unique [((5 : Int), (6 : Nat)), (3, 1), (8, 9)] [(8, 9), (5, 6), (3, 1)]
      (by decide) (by decide) (by decide)).1⟩

/-- Claim C18. Split/merge round trip: for a tree with the order and priority
invariants and pairwise distinct levels, and any pivot, merging the two parts
of `split(t, pivot)` gives back exactly `t`. -/
theorem split_merge_roundtrip [LinearOrder K] [LinearOrder P] (t : node_ptr K P) (pivot : K)
    (ho : Ordered t) (hh : Heap t) (hd : ((pairs t).map Prod.snd).Nodup) :
    merge (split t pivot).1 (split t pivot).2 = t := by
  have hle := split_fst_le t pivot ho
  have hgt := split_snd_gt t pivot ho
  have hom : Ordered (merge (split t pivot).1 (split t pivot).2) :=
    ordered_merge (ordered_split t pivot ho).1 (ordered_split t pivot ho).2
      (fun x hx y hy => lt_of_le_of_lt (hle x hx) (hgt y hy))
  have hhm : Heap (merge (split t pivot).1 (split t pivot).2) :=
    heap_merge _ _ (heap_split t pivot hh).1 (heap_split t pivot hh).2
  refine (eq_of_same_pairs t _ ho hh hom hhm (fun y => ?_) hd).symm
  rw [pairs_merge, pairs_split]

/-- Scenario 4 (levels 4, 9, 7, 5) split at `2` and merged again. -/
theorem split_merge_roundtrip_witness :
    (Ordered scenario4.Root ∧ Heap scenario4.Root ∧
      ((pairs scenario4.Root).map Prod.snd).Nodup) ∧
    merge (split scenario4.Root 2).1 (split scenario4.Root 2).2 = scenario4.Root :=
  ⟨⟨by decide, by decide, by decide⟩,
    split_merge_roundtrip scenario4.Root 2 (by decide) (by decide) (by decide)⟩

/-- Claim C19. Insert/erase round trip: for a tree with the order and priority
invariants and pairwise distinct levels, and a value `v` that is not stored,
`erase(v)` right after `insert(v)` returns `true` and restores exactly the
original tree and the original `Size`, whatever level the insert drew (a
level already present in the tree included). -/
theorem insert_erase_roundtrip [LinearOrder K] [LinearOrder P] (t : treap K P) (v : K) (p : P)
    (ho : Ordered t.Root) (hh : Heap t.Root) (hd : ((pairs t.Root).map Prod.snd).Nodup)
    (hv : v ∉ values t.Root) :
    (t.insert v p).2 = true ∧ ((t.insert v p).1.erase v).2 = true ∧
    ((t.insert v p).1.erase v).1.Root = t.Root ∧ ((t.insert v p).1.erase v).1.Size = t.Size ∧
    ((t.insert v p).1.erase v).1 = t := by
  have hx : search t.Root v = null := (search_eq_null_iff t.Root v ho).2 hv
  have ho2 := ordered_insert_root t.Root v p ho hv
  have hh2 := heap_insert_root t.Root v p hh
  have hx2 : search (merge (split t.Root v).1 (merge (node v p null null) (split t.Root v).2)) v
      ≠ null := by
    intro h
    exact (search_eq_null_iff _ v ho2).1 h ((mem_values_insert_root t.Root v p v).2 (Or.inl rfl))
  obtain ⟨q, hq⟩ := pairs_erase_perm _ v false hx2
  have hins := pairs_insert_root_perm t.Root v p
  have hnd : ((pairs (merge (split t.Root v).1
      (merge (node v p null null) (split t.Root v).2))).map Prod.fst).Nodup := by
    rw [← values_eq_map_pairs]
    exact ho2.nodup
  have hqp : (v, q) = (v, p) :=
    List.inj_on_of_nodup_map hnd (hq.symm.subset (List.mem_cons_self _ _))
      (hins.symm.subset (List.mem_cons_self _ _)) rfl
  rw [hqp] at hq
  have hperm : (pairs (node_ptr.erase (merge (split t.Root v).1
      (merge (node v p null null) (split t.Root v).2)) v false).1).Perm (pairs t.Root) :=
    (hq.symm.trans hins).cons_inv
  have hroot : (node_ptr.erase (merge (split t.Root v).1
      (merge (node v p null null) (split t.Root v).2)) v false).1 = t.Root :=
    (eq_of_same_pairs t.Root _ ho hh (ordered_erase _ v false ho2) (heap_erase _ v false hh2)
      (fun y => (hperm.mem_iff).symm) hd).symm
  rw [treap.insert_of_search_null t v p hx, treap.erase_of_search_ne_null _ v hx2]
  simp only [hroot, Nat.add_one_ne_zero, if_false, Nat.add_sub_cancel, true_and]

/-- Scenario 4 with `insert(3)` drawing the level 7 that the node holding `4`
already has, followed by `erase(3)`. -/
theorem insert_erase_roundtrip_witness :
    (Ordered scenario4.Root ∧ Heap scenario4.Root ∧
      ((pairs scenario4.Root).map Prod.snd).Nodup ∧ (3 : Int) ∉ values scenario4.Root) ∧
    ((scenario4.insert 3 7).1.erase 3).2 = true ∧ ((scenario4.insert 3 7).1.erase 3).1 = scenario4 :=
  ⟨⟨by decide, by decide, by decide, by decide⟩,
    (insert_erase_roundtrip scenario4 3 7 (by decide) (by decide) (by decide) (by decide)).2.1,
    (insert_erase_roundtrip scenario4 3 7 (by decide) (by decide) (by decide) (by decide)).2.2.2.2⟩

end Claims

end alexbogo
